import Mathlib

/-!
Verification of the QSVE components in
`qiskit/aqua/components/qsve/qsve.py`: the `BinaryTree` amplitude-encoding
structure, its preparation-circuit rotation angles, and the `QSVE` class
(construction checks, Frobenius norm, diagonal shift).

Python floats are modelled as elements of a linear ordered field; theorems
about square roots and trigonometric angle formulas are stated over `ℝ`.
-/

namespace QSVEPy

variable {α : Type} [LinearOrderedField α]

/-- Python `np.sign`: `-1` for negatives, `0` for zero, `1` for positives. -/
def npSign (x : α) : α := if x < 0 then -1 else if x = 0 then 0 else 1

/-- One pass of the summing loop in `BinaryTree.__init__`:
`for ii in range(0, len(row) - 1, 2): vals.append(row[ii] + row[ii + 1])`.
For an odd-length row the last element is dropped, exactly as in the Python
`range` bound. -/
def sumAdjacent : List α → List α
  | a :: b :: rest => (a + b) :: sumAdjacent rest
  | _ => []

/-- The `while len(self._tree[-1]) > 1` loop of `BinaryTree.__init__`, building
levels bottom-up from `row` and returning them in construction order
(`row` first, root row last).  The loop halves the row length each iteration,
so it performs at most `fuel` iterations whenever `fuel ≥ row.length`; call
sites pass the vector length as fuel, which always suffices. -/
def sumLoop : ℕ → List α → List (List α)
  | 0, row => [row]
  | fuel + 1, row =>
    if row.length ≤ 1 then [row] else row :: sumLoop fuel (sumAdjacent row)

/-- The dimension check of `BinaryTree.__init__` and `QSVE.__init__`:
construction succeeds when `n & (n - 1) == 0`.  Note that `n = 0` passes the
check, as in Python where `0 & -1 == 0`. -/
def powTwoCheck (n : ℕ) : Bool := n &&& (n - 1) == 0

/-- The mathematical notion the spec uses: `n` is a power of two. -/
def IsPowTwo (n : ℕ) : Prop := ∃ k : ℕ, n = 2 ^ k

/-- The state stored by a `BinaryTree` instance: `self._values` (the copied
input vector) and `self._tree` (the list of levels, root row first; the final
row holds the signs of the input values). -/
structure BinaryTree (α : Type) where
  values : List α
  tree : List (List α)
deriving DecidableEq

/-- Python `BinaryTree.__init__`.  `none` models the `ValueError` raised when
the length check fails.  The tree is built upside down — sign row, then
squared magnitudes, then the summing loop — and reversed, as in the source. -/
def BinaryTree.ofVector? (v : List α) : Option (BinaryTree α) :=
  if powTwoCheck v.length then
    some { values := v
           tree := ((v.map npSign) :: sumLoop v.length (v.map fun x => |x| ^ 2)).reverse }
  else none

namespace BinaryTree

/-- Python property `BinaryTree.data`: the raw list of levels. -/
def data (t : BinaryTree α) : List (List α) := t.tree

/-- Python property `BinaryTree.root` (`self._tree[0][0]`).  Out-of-range
indexing, an `IndexError` in Python, is defaulted to `0` here; it never occurs
for trees built from nonempty vectors. -/
def root (t : BinaryTree α) : α := (t.tree.getD 0 []).getD 0 0

/-- Python property `BinaryTree.number_leaves`. -/
def number_leaves (t : BinaryTree α) : ℕ := t.values.length

/-- Python property `BinaryTree.number_levels = ceil(log2(nvals)) + 1`;
`Nat.clog 2` is the ceiling base-two logarithm. -/
def number_levels (t : BinaryTree α) : ℕ := Nat.clog 2 t.values.length + 1

/-- Python `BinaryTree.get_leaf` (`self._values[index]`). -/
def get_leaf (t : BinaryTree α) (i : ℕ) : α := t.values.getD i 0

/-- Python `BinaryTree.get_level` (`self._tree[level]`). -/
def get_level (t : BinaryTree α) (l : ℕ) : List α := t.tree.getD l []

/-- Python `BinaryTree.get_element` (`self._tree[level][index]`). -/
def get_element (t : BinaryTree α) (l i : ℕ) : α := (t.tree.getD l []).getD i 0

/-- Python `BinaryTree.parent_index`. -/
def parent_index (t : BinaryTree α) (l i : ℕ) : Option (ℕ × ℕ) :=
  if l = 0 ∨ l > t.number_levels then none else some (l - 1, i / 2)

/-- Python `BinaryTree.left_child_index`. -/
def left_child_index (t : BinaryTree α) (l i : ℕ) : Option (ℕ × ℕ) :=
  if l = t.number_levels - 1 then none else some (l + 1, 2 * i)

/-- Python `BinaryTree.right_child_index`. -/
def right_child_index (t : BinaryTree α) (l i : ℕ) : Option (ℕ × ℕ) :=
  if l = t.number_levels - 1 then none else some (l + 1, 2 * i + 1)

/-- Python `BinaryTree.left_child_value`. -/
def left_child_value (t : BinaryTree α) (l i : ℕ) : Option α :=
  if l = t.number_levels - 1 then none else some (t.get_element (l + 1) (2 * i))

/-- Python `BinaryTree.right_child_value`. -/
def right_child_value (t : BinaryTree α) (l i : ℕ) : Option α :=
  if l = t.number_levels - 1 then none else some (t.get_element (l + 1) (2 * i + 1))

/-- Python `BinaryTree.update_entry`: writes the leaf in place and re-runs
`__init__` on the mutated value list (whose length check re-fires, though it
always passes since `set` preserves the length). -/
def update_entry (t : BinaryTree α) (i : ℕ) (x : α) : Option (BinaryTree α) :=
  BinaryTree.ofVector? (t.values.set i x)

end BinaryTree

/-! ### Structural lemmas about the summing loop -/

theorem sumAdjacent_length : ∀ l : List α, (sumAdjacent l).length = l.length / 2
  | [] => by simp [sumAdjacent]
  | [_] => by simp [sumAdjacent]
  | _ :: _ :: rest => by
    simp only [sumAdjacent, List.length_cons, sumAdjacent_length rest]
    omega

theorem sumAdjacent_sum : ∀ l : List α, l.length % 2 = 0 → (sumAdjacent l).sum = l.sum
  | [], _ => rfl
  | [_], h => by simp at h
  | a :: b :: rest, h => by
    have hr : rest.length % 2 = 0 := by
      simp only [List.length_cons] at h; omega
    simp only [sumAdjacent, List.sum_cons, sumAdjacent_sum rest hr]
    ring

theorem sumAdjacent_getD : ∀ (l : List α) (i : ℕ), 2 * i + 1 < l.length →
    (sumAdjacent l).getD i 0 = l.getD (2 * i) 0 + l.getD (2 * i + 1) 0
  | [], i, h => by simp at h
  | [_], i, h => by
    simp only [List.length_cons, List.length_nil] at h
    omega
  | _ :: _ :: rest, 0, _ => rfl
  | a :: b :: rest, i + 1, h => by
    have hlt : 2 * i + 1 < rest.length := by
      simp only [List.length_cons] at h; omega
    have e1 : 2 * (i + 1) = 2 * i + 1 + 1 := by ring
    have e2 : 2 * (i + 1) + 1 = 2 * i + 1 + 1 + 1 := by ring
    simp only [sumAdjacent, e1, e2, List.getD_cons_succ]
    exact sumAdjacent_getD rest i hlt

theorem sumAdjacent_nonneg : ∀ l : List α, (∀ x ∈ l, 0 ≤ x) → ∀ x ∈ sumAdjacent l, 0 ≤ x
  | [], _, x, hx => by simp [sumAdjacent] at hx
  | [_], _, x, hx => by simp [sumAdjacent] at hx
  | a :: b :: rest, h, x, hx => by
    simp only [sumAdjacent, List.mem_cons] at hx
    rcases hx with rfl | hx
    · have ha := h a (by simp)
      have hb := h b (by simp)
      linarith
    · exact sumAdjacent_nonneg rest (fun y hy => h y (by simp [hy])) x hx

theorem sumLoop_eq_iterate : ∀ (k fuel : ℕ) (l : List α), l.length = 2 ^ k → k ≤ fuel →
    sumLoop fuel l = (List.range (k + 1)).map fun j => sumAdjacent^[j] l := by
  intro k
  induction k with
  | zero =>
    intro fuel l hl _
    cases fuel with
    | zero => simp [sumLoop]
    | succ f => simp [sumLoop, hl]
  | succ k ih =>
    intro fuel l hl hf
    cases fuel with
    | zero => omega
    | succ f =>
      have hpos : 0 < 2 ^ k := pow_pos (by norm_num) k
      have hlen : ¬ l.length ≤ 1 := by
        rw [hl, pow_succ]; omega
    -- one loop iteration, then the inductive hypothesis on the halved row
      rw [sumLoop, if_neg hlen]
      have hsa : (sumAdjacent l).length = 2 ^ k := by
        rw [sumAdjacent_length, hl, pow_succ]; omega
      rw [ih f (sumAdjacent l) hsa (by omega)]
      have hr : List.range (k + 1 + 1) = 0 :: (List.range (k + 1)).map Nat.succ :=
        List.range_succ_eq_map (k + 1)
      rw [hr, List.map_cons, List.map_map]
      refine congrArg₂ List.cons (by simp) ?_
      apply List.map_congr_left
      intro j _
      simp only [Function.comp_apply, Function.iterate_succ_apply]

theorem iterate_sumAdjacent_length {l : List α} {k : ℕ} (hl : l.length = 2 ^ k) :
    ∀ j, j ≤ k → (sumAdjacent^[j] l).length = 2 ^ (k - j) := by
  intro j
  induction j with
  | zero => intro _; simpa using hl
  | succ j ih =>
    intro hj
    rw [Function.iterate_succ_apply', sumAdjacent_length, ih (by omega)]
    have : k - j = (k - (j + 1)) + 1 := by omega
    rw [this, pow_succ]
    omega

theorem iterate_sumAdjacent_sum {l : List α} {k : ℕ} (hl : l.length = 2 ^ k) :
    ∀ j, j ≤ k → (sumAdjacent^[j] l).sum = l.sum := by
  intro j
  induction j with
  | zero => simp
  | succ j ih =>
    intro hj
    rw [Function.iterate_succ_apply', sumAdjacent_sum, ih (by omega)]
    rw [iterate_sumAdjacent_length hl j (by omega)]
    have : k - j = (k - (j + 1)) + 1 := by omega
    rw [this, pow_succ]
    omega

theorem iterate_sumAdjacent_nonneg {l : List α} (h : ∀ x ∈ l, 0 ≤ x) :
    ∀ j, ∀ x ∈ sumAdjacent^[j] l, 0 ≤ x := by
  intro j
  induction j with
  | zero => simpa using h
  | succ j ih =>
    rw [Function.iterate_succ_apply']
    exact sumAdjacent_nonneg _ ih

/-! ### The bit-trick dimension check -/

theorem land_pred_pow_two (k : ℕ) : 2 ^ k &&& (2 ^ k - 1) = 0 :=
  Nat.eq_of_testBit_eq fun i => by
    rw [Nat.testBit_land, Nat.zero_testBit]
    rcases eq_or_ne k i with rfl | h
    · simp [Nat.testBit_two_pow_sub_one]
    · simp [Nat.testBit_two_pow_of_ne h]

theorem powTwoCheck_pow_two (k : ℕ) : powTwoCheck (2 ^ k) = true := by
  simp [powTwoCheck, land_pred_pow_two]

/-! ### Shape of a tree built from a power-of-two-length vector -/

theorem ofVector?_pow_two {v : List α} {k : ℕ} (hv : v.length = 2 ^ k) :
    BinaryTree.ofVector? v =
      some { values := v
             tree := ((v.map npSign) ::
               (List.range (k + 1)).map fun j =>
                 sumAdjacent^[j] (v.map fun x => |x| ^ 2)).reverse } := by
  rw [BinaryTree.ofVector?, if_pos (by rw [hv]; exact powTwoCheck_pow_two k)]
  have hsq : (v.map fun x => |x| ^ 2).length = 2 ^ k := by simpa using hv
  rw [sumLoop_eq_iterate k v.length _ hsq
    (by rw [hv]; exact Nat.le_of_lt (Nat.lt_two_pow k))]

theorem build_spec {v : List α} {k : ℕ} {t : BinaryTree α} (hv : v.length = 2 ^ k)
    (ht : BinaryTree.ofVector? v = some t) :
    t.values = v ∧ t.tree.length = k + 2 ∧
    (∀ l, l ≤ k → t.get_level l = sumAdjacent^[k - l] (v.map fun x => |x| ^ 2)) ∧
    t.get_level (k + 1) = v.map npSign := by
  rw [ofVector?_pow_two hv] at ht
  injection ht with ht
  subst ht
  set chain := (List.range (k + 1)).map fun j =>
    sumAdjacent^[j] (v.map fun x => |x| ^ 2) with hchain
  have hclen : chain.length = k + 1 := by simp [hchain]
  have hlen : ((v.map npSign :: chain).reverse).length = k + 2 := by
    simp [hclen]
  refine ⟨rfl, hlen, ?_, ?_⟩
  · intro l hl
    show ((v.map npSign :: chain).reverse).getD l [] = _
    rw [List.getD_eq_getElem _ _ (by omega : l < ((v.map npSign :: chain).reverse).length)]
    rw [List.getElem_reverse]
    have hidx : (v.map npSign :: chain).length - 1 - l = (k - l) + 1 := by
      simp [hclen]; omega
    simp only [hidx, List.getElem_cons_succ]
    have hkl : k - l < chain.length := by omega
    simp only [hchain]
    simp only [List.getElem_map, List.getElem_range]
  · show ((v.map npSign :: chain).reverse).getD (k + 1) [] = _
    rw [List.getD_eq_getElem _ _
      (by omega : k + 1 < ((v.map npSign :: chain).reverse).length)]
    rw [List.getElem_reverse]
    have hidx : (v.map npSign :: chain).length - 1 - (k + 1) = 0 := by
      simp [hclen]
    simp only [hidx, List.getElem_cons_zero]

theorem number_levels_eq {v : List α} {k : ℕ} {t : BinaryTree α} (hv : v.length = 2 ^ k)
    (ht : BinaryTree.ofVector? v = some t) : t.number_levels = k + 1 := by
  rw [BinaryTree.number_levels, (build_spec hv ht).1, hv, Nat.clog_pow 2 k (by norm_num)]

theorem get_level_length {v : List α} {k : ℕ} {t : BinaryTree α} (hv : v.length = 2 ^ k)
    (ht : BinaryTree.ofVector? v = some t) :
    ∀ l, l ≤ k → (t.get_level l).length = 2 ^ l := by
  intro l hl
  rw [(build_spec hv ht).2.2.1 l hl]
  have hsq : (v.map fun x => |x| ^ 2).length = 2 ^ k := by simpa using hv
  rw [iterate_sumAdjacent_length hsq (k - l) (by omega)]
  congr 1
  omega

theorem get_level_nonneg {v : List α} {k : ℕ} {t : BinaryTree α} (hv : v.length = 2 ^ k)
    (ht : BinaryTree.ofVector? v = some t) :
    ∀ l, l ≤ k → ∀ x ∈ t.get_level l, 0 ≤ x := by
  intro l hl
  rw [(build_spec hv ht).2.2.1 l hl]
  apply iterate_sumAdjacent_nonneg
  intro x hx
  simp only [List.mem_map] at hx
  obtain ⟨y, _, rfl⟩ := hx
  positivity

theorem get_element_nonneg {v : List α} {k : ℕ} {t : BinaryTree α} (hv : v.length = 2 ^ k)
    (ht : BinaryTree.ofVector? v = some t) (l i : ℕ) (hl : l ≤ k) :
    0 ≤ t.get_element l i := by
  show 0 ≤ (t.get_level l).getD i 0
  rcases lt_or_le i (t.get_level l).length with h | h
  · rw [List.getD_eq_getElem _ _ h]
    exact get_level_nonneg hv ht l hl _ (List.getElem_mem h)
  · rw [List.getD_eq_default _ _ h]

theorem get_element_children {v : List α} {k : ℕ} {t : BinaryTree α} (hv : v.length = 2 ^ k)
    (ht : BinaryTree.ofVector? v = some t) :
    ∀ l i, l < k →
      t.get_element l i = t.get_element (l + 1) (2 * i) + t.get_element (l + 1) (2 * i + 1) := by
  intro l i hl
  have hsq : (v.map fun x => |x| ^ 2).length = 2 ^ k := by simpa using hv
  have h1 := (build_spec hv ht).2.2.1 l (by omega)
  have h2 := (build_spec hv ht).2.2.1 (l + 1) (by omega)
  have hstep : sumAdjacent^[k - l] (v.map fun x => |x| ^ 2) =
      sumAdjacent (sumAdjacent^[k - (l + 1)] (v.map fun x => |x| ^ 2)) := by
    have he : k - l = (k - (l + 1)) + 1 := by omega
    rw [he, Function.iterate_succ_apply']
  rcases lt_or_le (2 * i + 1) ((sumAdjacent^[k - (l + 1)] (v.map fun x => |x| ^ 2)).length)
      with hin | hout
  · show (t.get_level l).getD i 0 =
      (t.get_level (l + 1)).getD (2 * i) 0 + (t.get_level (l + 1)).getD (2 * i + 1) 0
    rw [h1, h2, hstep]
    exact sumAdjacent_getD _ i hin
  · -- out-of-range parent index: all three accesses default to 0
    have hlen2 : (sumAdjacent^[k - (l + 1)] (v.map fun x => |x| ^ 2)).length = 2 ^ (l + 1) := by
      rw [iterate_sumAdjacent_length hsq (k - (l + 1)) (by omega)]
      congr 1
      omega
    have hlen1 : (sumAdjacent^[k - l] (v.map fun x => |x| ^ 2)).length = 2 ^ l := by
      rw [iterate_sumAdjacent_length hsq (k - l) (by omega)]
      congr 1
      omega
    show (t.get_level l).getD i 0 =
      (t.get_level (l + 1)).getD (2 * i) 0 + (t.get_level (l + 1)).getD (2 * i + 1) 0
    rw [h1, h2]
    rw [List.getD_eq_default _ _ (by rw [hlen1]; rw [hlen2] at hout; rw [pow_succ] at hout; omega)]
    rw [List.getD_eq_default _ _ (by rw [hlen2]; rw [hlen2] at hout; omega)]
    rw [List.getD_eq_default _ _ (by rw [hlen2]; rw [hlen2] at hout; omega)]
    ring

theorem root_eq {v : List α} {k : ℕ} {t : BinaryTree α} (hv : v.length = 2 ^ k)
    (ht : BinaryTree.ofVector? v = some t) :
    t.root = (v.map fun x => x ^ 2).sum := by
  have hsq : (v.map fun x => |x| ^ 2).length = 2 ^ k := by simpa using hv
  have h0 : t.get_level 0 = sumAdjacent^[k] (v.map fun x => |x| ^ 2) := by
    have := (build_spec hv ht).2.2.1 0 (by omega)
    simpa using this
  have hlen1 : (t.get_level 0).length = 1 := by
    simpa using get_level_length hv ht 0 (by omega)
  have hsum : (t.get_level 0).sum = (v.map fun x => |x| ^ 2).sum := by
    rw [h0]
    exact iterate_sumAdjacent_sum hsq k le_rfl
  obtain ⟨a, ha⟩ := List.length_eq_one.mp hlen1
  show (t.get_level 0).getD 0 0 = _
  rw [ha] at hsum ⊢
  simp only [List.sum_cons, List.sum_nil, add_zero] at hsum
  simp only [List.getD_cons_zero, hsum]
  simp [sq_abs]

/-! ### Full characterization of the bit-trick dimension check -/

theorem land_pred_zero_imp : ∀ n : ℕ, n &&& (n - 1) = 0 → n = 0 ∨ IsPowTwo n := by
  intro n
  induction n using Nat.strong_induction_on with
  | _ n ih =>
    intro h
    rcases Nat.lt_or_ge n 2 with h2 | h2
    · interval_cases n
      · exact Or.inl rfl
      · exact Or.inr ⟨0, rfl⟩
    · have hbits : ∀ i, (n.testBit i && (n - 1).testBit i) = false := by
        intro i
        rw [← Nat.testBit_land, h]
        exact Nat.zero_testBit i
      rcases Nat.even_or_odd n with he | ho
      · obtain ⟨m, hm⟩ := he
        have hm1 : 1 ≤ m := by omega
        have hmland : m &&& (m - 1) = 0 := by
          apply Nat.eq_of_testBit_eq
          intro i
          rw [Nat.testBit_land, Nat.zero_testBit]
          have hb := hbits (i + 1)
          rw [Nat.testBit_add_one, Nat.testBit_add_one] at hb
          have hd1 : n / 2 = m := by omega
          have hd2 : (n - 1) / 2 = m - 1 := by omega
          rwa [hd1, hd2] at hb
        rcases ih m (by omega) hmland with h0 | ⟨j, hj⟩
        · omega
        · exact Or.inr ⟨j + 1, by rw [pow_succ]; omega⟩
      · obtain ⟨m, hm⟩ := ho
        have hm1 : 1 ≤ m := by omega
        have hmzero : m = 0 := by
          apply Nat.eq_of_testBit_eq
          intro i
          rw [Nat.zero_testBit]
          have hb := hbits (i + 1)
          rw [Nat.testBit_add_one, Nat.testBit_add_one] at hb
          have hd1 : n / 2 = m := by omega
          have hd2 : (n - 1) / 2 = m := by omega
          rw [hd1, hd2, Bool.and_self] at hb
          exact hb
        omega

theorem powTwoCheck_iff (n : ℕ) : powTwoCheck n = true ↔ (n = 0 ∨ IsPowTwo n) := by
  rw [powTwoCheck, beq_iff_eq]
  constructor
  · exact land_pred_zero_imp n
  · rintro (rfl | ⟨k, rfl⟩)
    · rfl
    · exact land_pred_pow_two k

/-! ### Claim C1: tree construction invariants -/

/-- C1: for every vector whose length is a power of two, construction succeeds
and the tree satisfies: the root is the sum of the squared magnitudes of all
leaves (the squared two-norm of the vector); every non-leaf node equals the
sum of its two children; and the last tree level holds the squared magnitudes
of the input values. -/
theorem C1_tree_invariants (v : List α) (k : ℕ) (hlen : v.length = 2 ^ k) :
    ∃ t : BinaryTree α, BinaryTree.ofVector? v = some t ∧
      t.root = (v.map fun x => x ^ 2).sum ∧
      t.get_level (t.number_levels - 1) = v.map (fun x => |x| ^ 2) ∧
      ∀ l i, l + 1 < t.number_levels → i < (t.get_level l).length →
        ∃ a b, t.left_child_value l i = some a ∧ t.right_child_value l i = some b ∧
          t.get_element l i = a + b := by
  obtain ⟨t, ht⟩ : ∃ t, BinaryTree.ofVector? v = some t := by
    rw [ofVector?_pow_two hlen]
    exact ⟨_, rfl⟩
  have hnl := number_levels_eq hlen ht
  refine ⟨t, ht, root_eq hlen ht, ?_, ?_⟩
  · rw [hnl]
    have hk := (build_spec hlen ht).2.2.1 k le_rfl
    simpa using hk
  · intro l i hl _
    rw [hnl] at hl
    have hlk : l < k := by omega
    have hne : l ≠ t.number_levels - 1 := by rw [hnl]; omega
    exact ⟨t.get_element (l + 1) (2 * i), t.get_element (l + 1) (2 * i + 1),
      by rw [BinaryTree.left_child_value, if_neg hne],
      by rw [BinaryTree.right_child_value, if_neg hne],
      get_element_children hlen ht l i hlk⟩

/-! ### Claim C9: the extra sign row -/

/-- C9: for a vector of length at least two, the stored level structure exposed
by `data` has `number_levels + 1` rows: the second-to-last row holds the
squared magnitudes of the leaves, and the final extra row holds the
element-wise signs of the input vector; `get_level number_levels` returns this
sign row instead of failing. -/
theorem C9_sign_row (v : List α) (k : ℕ) (hlen : v.length = 2 ^ k) (h2 : 2 ≤ v.length) :
    ∃ t : BinaryTree α, BinaryTree.ofVector? v = some t ∧
      t.data.length = t.number_levels + 1 ∧
      t.data.getD (t.number_levels - 1) [] = v.map (fun x => |x| ^ 2) ∧
      t.data.getD t.number_levels [] = v.map npSign ∧
      t.get_level t.number_levels = v.map npSign := by
  obtain ⟨t, ht⟩ : ∃ t, BinaryTree.ofVector? v = some t := by
    rw [ofVector?_pow_two hlen]
    exact ⟨_, rfl⟩
  have hnl := number_levels_eq hlen ht
  have hspec := build_spec hlen ht
  refine ⟨t, ht, ?_, ?_, ?_, ?_⟩
  · rw [BinaryTree.data, hspec.2.1, hnl]
  · show t.get_level (t.number_levels - 1) = _
    rw [hnl]
    have hk := hspec.2.2.1 k le_rfl
    simpa using hk
  · show t.get_level t.number_levels = _
    rw [hnl]
    exact hspec.2.2.2
  · rw [hnl]
    exact hspec.2.2.2

/-! ### Claim C7: updating one entry is a full rebuild -/

/-- C7: for a tree built from `v` and a valid leaf index `i`, `update_entry i x`
produces exactly the tree obtained by fresh construction from `v` with entry
`i` replaced by `x` (all stored state — values, levels, root and sign row —
coincides, since the results are equal as whole structures). -/
theorem C7_update_entry (v : List α) (k i : ℕ) (x : α) (hlen : v.length = 2 ^ k)
    (hi : i < v.length) {t : BinaryTree α} (ht : BinaryTree.ofVector? v = some t) :
    ∃ t' : BinaryTree α, t.update_entry i x = some t' ∧
      BinaryTree.ofVector? (v.set i x) = some t' := by
  have hvals : t.values = v := (build_spec hlen ht).1
  have hlen' : (v.set i x).length = 2 ^ k := by simpa using hlen
  obtain ⟨t', ht'⟩ : ∃ t', BinaryTree.ofVector? (v.set i x) = some t' := by
    rw [ofVector?_pow_two hlen']
    exact ⟨_, rfl⟩
  exact ⟨t', by rw [BinaryTree.update_entry, hvals, ht'], ht'⟩

/-! ### The QSVE class -/

theorem getD_set_self {β : Type} {l : List β} {i : ℕ} {x d : β} (h : i < l.length) :
    (l.set i x).getD i d = x := by
  rw [List.getD_eq_getElem?_getD, List.getElem?_set_self h, Option.getD_some]

theorem getD_set_ne {β : Type} {l : List β} {i j : ℕ} {x d : β} (h : i ≠ j) :
    (l.set i x).getD j d = l.getD j d := by
  rw [List.getD_eq_getElem?_getD, List.getElem?_set_ne h, ← List.getD_eq_getElem?_getD]

/-- The loop `for row in matrix: self._trees.append(BinaryTree(row))` of
`QSVE.__init__`; `none` models the `ValueError` a row of invalid length would
raise. -/
def treesOfRows? : List (List α) → Option (List (BinaryTree α))
  | [] => some []
  | row :: rest =>
    match BinaryTree.ofVector? row with
    | none => none
    | some t =>
      match treesOfRows? rest with
      | none => none
      | some ts => some (t :: ts)

/-- The state stored by a `QSVE` instance: `self._matrix` (the copied input
matrix), `self._trees`, and the one-way `self._shifted` flag. -/
structure QSVE (α : Type) where
  matrix : List (List α)
  trees : List (BinaryTree α)
  shifted : Bool
deriving DecidableEq

/-- Python `QSVE.__init__`.  The matrix is a list of rows; `nrows, ncols =
matrix.shape` of the dense numpy array is modelled as the row count and the
length of the first row (numpy arrays are rectangular).  `none` models an
exception: the `ValueError` raised when the matrix is not square or its
column count fails the power-of-two bit check, the `OverflowError` raised by
the subsequent `int(np.log2(ncols))` when `ncols = 0` (`np.log2(0)` is
`-inf` and `int(-inf)` raises), or a `ValueError` from a `BinaryTree`
constructor. -/
def QSVE.ofMatrix? (m : List (List α)) : Option (QSVE α) :=
  if m.length ≠ (m.headD []).length then none
  else if ¬ powTwoCheck (m.headD []).length then none
  else if (m.headD []).length = 0 then none
  else (treesOfRows? m).map fun trees => { matrix := m, trees := trees, shifted := false }

/-- Python `QSVE.matrix_norm`: the square root of the accumulated sum of all
tree roots.  The real-valued `np.sqrt` is passed in as the parameter `sqrt`;
theorems over `ℝ` instantiate it with `Real.sqrt`. -/
def QSVE.matrix_norm (sqrt : α → α) (q : QSVE α) : α :=
  sqrt ((q.trees.map BinaryTree.root).sum)

/-- The matrix update performed by the `for (diag, tree) in
enumerate(self._trees)` loop of `QSVE.shift_matrix`: row `diag` gets its
diagonal entry increased by `norm`.  `d` carries the index of the first row of
the remaining suffix. -/
def shiftRows (norm : α) : ℕ → List (List α) → List (List α)
  | _, [] => []
  | d, row :: rest => row.set d (row.getD d 0 + norm) :: shiftRows norm (d + 1) rest

/-- The tree update of the same loop: `tree.update_entry(diag, value + norm)`,
where `value = self._matrix[diag][diag]` is read before the row is updated.
Since earlier iterations only touch rows with smaller index, reading from the
pre-loop matrix is equivalent.  `update_entry` cannot fail here because `set`
preserves the length, so the `Option` is defaulted to the untouched tree. -/
def shiftTrees (matrix : List (List α)) (norm : α) :
    ℕ → List (BinaryTree α) → List (BinaryTree α)
  | _, [] => []
  | d, t :: rest =>
    (t.update_entry d ((matrix.getD d []).getD d 0 + norm)).getD t ::
      shiftTrees matrix norm (d + 1) rest

/-- Python `QSVE.shift_matrix`: does nothing when the flag is set; otherwise
adds the Frobenius norm to every diagonal entry of the matrix, rebuilds the
corresponding trees, and sets the flag. -/
def QSVE.shift_matrix (sqrt : α → α) (q : QSVE α) : QSVE α :=
  if q.shifted then q
  else
    { matrix := shiftRows (q.matrix_norm sqrt) 0 q.matrix
      trees := shiftTrees q.matrix (q.matrix_norm sqrt) 0 q.trees
      shifted := true }

/-- The classical squared Frobenius norm `Σ_ij A_ij²`, written from the spec's
words for comparison with `matrix_norm`. -/
def frobeniusNormSq (m : List (List α)) : α :=
  (m.map fun row => (row.map fun x => x ^ 2).sum).sum

/-! ### Lemmas about QSVE construction and the shift loop -/

theorem treesOfRows?_spec : ∀ (rows : List (List α)) (ts : List (BinaryTree α)),
    treesOfRows? rows = some ts →
    ts.length = rows.length ∧ ∀ i, i < rows.length →
      BinaryTree.ofVector? (rows.getD i []) = some (ts.getD i ⟨[], []⟩)
  | [], ts, h => by
    cases h
    exact ⟨rfl, fun i hi => absurd hi (by simp)⟩
  | row :: rest, ts, h => by
    rw [treesOfRows?] at h
    cases hrow : BinaryTree.ofVector? row with
    | none => rw [hrow] at h; exact absurd h (by simp)
    | some t =>
      rw [hrow] at h
      cases hrest : treesOfRows? rest with
      | none => rw [hrest] at h; exact absurd h (by simp)
      | some ts' =>
        rw [hrest] at h
        simp only [Option.some.injEq] at h
        subst h
        obtain ⟨hl, hi⟩ := treesOfRows?_spec rest ts' hrest
        refine ⟨by simp [hl], ?_⟩
        intro i hilt
        cases i with
        | zero => simpa using hrow
        | succ i =>
          simp only [List.getD_cons_succ]
          exact hi i (by simpa using hilt)

theorem treesOfRows?_isSome : ∀ rows : List (List α),
    (∀ row ∈ rows, (BinaryTree.ofVector? row).isSome) → (treesOfRows? rows).isSome
  | [], _ => rfl
  | row :: rest, h => by
    rw [treesOfRows?]
    obtain ⟨t, ht⟩ := Option.isSome_iff_exists.mp (h row (by simp))
    rw [ht]
    obtain ⟨ts, hts⟩ := Option.isSome_iff_exists.mp
      (treesOfRows?_isSome rest fun r hr => h r (by simp [hr]))
    rw [hts]
    rfl

theorem ofMatrix?_spec {m : List (List α)} {q : QSVE α} (hq : QSVE.ofMatrix? m = some q) :
    m.length = (m.headD []).length ∧ powTwoCheck (m.headD []).length = true ∧
    treesOfRows? m = some q.trees ∧ q.matrix = m ∧ q.shifted = false := by
  rw [QSVE.ofMatrix?] at hq
  split at hq
  · exact absurd hq (by simp)
  · split at hq
    · exact absurd hq (by simp)
    · split at hq
      · exact absurd hq (by simp)
      · cases hts : treesOfRows? (α := α) m with
        | none => rw [hts] at hq; exact absurd hq (by simp)
        | some ts =>
          rw [hts] at hq
          simp only [Option.map_some', Option.some.injEq] at hq
          subst hq
          exact ⟨by omega, by rename_i h1 h2 h3; simpa using h2, hts ▸ rfl, rfl, rfl⟩

theorem shiftRows_getD (norm : α) : ∀ (d i : ℕ) (rows : List (List α)), i < rows.length →
    (shiftRows norm d rows).getD i [] =
      (rows.getD i []).set (d + i) ((rows.getD i []).getD (d + i) 0 + norm)
  | d, 0, row :: rest, _ => by simp [shiftRows]
  | d, i + 1, row :: rest, h => by
    simp only [shiftRows, List.getD_cons_succ]
    rw [shiftRows_getD norm (d + 1) i rest (by simpa using h),
      show d + 1 + i = d + (i + 1) from by omega]

theorem shiftTrees_getD (M : List (List α)) (norm : α) :
    ∀ (d i : ℕ) (trees : List (BinaryTree α)), i < trees.length →
    (shiftTrees M norm d trees).getD i ⟨[], []⟩ =
      ((trees.getD i ⟨[], []⟩).update_entry (d + i)
        ((M.getD (d + i) []).getD (d + i) 0 + norm)).getD (trees.getD i ⟨[], []⟩)
  | d, 0, t :: rest, _ => by simp [shiftTrees]
  | d, i + 1, t :: rest, h => by
    simp only [shiftTrees, List.getD_cons_succ]
    rw [shiftTrees_getD M norm (d + 1) i rest (by simpa using h),
      show d + 1 + i = d + (i + 1) from by omega]

theorem roots_sum_eq {k : ℕ} : ∀ (rows : List (List α)) (ts : List (BinaryTree α)),
    (∀ row ∈ rows, row.length = 2 ^ k) → treesOfRows? rows = some ts →
    (ts.map BinaryTree.root).sum = frobeniusNormSq rows
  | [], ts, _, h => by
    cases h
    simp [frobeniusNormSq]
  | row :: rest, ts, hlen, h => by
    rw [treesOfRows?] at h
    cases hrow : BinaryTree.ofVector? row with
    | none => rw [hrow] at h; exact absurd h (by simp)
    | some t =>
      rw [hrow] at h
      cases hrest : treesOfRows? rest with
      | none => rw [hrest] at h; exact absurd h (by simp)
      | some ts' =>
        rw [hrest] at h
        simp only [Option.some.injEq] at h
        subst h
        have hroot : t.root = (row.map fun x => x ^ 2).sum :=
          root_eq (hlen row (by simp)) hrow
        have ih := roots_sum_eq rest ts' (fun r hr => hlen r (by simp [hr])) hrest
        simp only [List.map_cons, List.sum_cons, hroot, ih, frobeniusNormSq]

theorem getD_mem {m : List (List α)} {i : ℕ} (hi : i < m.length) : m.getD i [] ∈ m := by
  rw [List.getD_eq_getElem _ _ hi]
  exact List.getElem_mem hi

/-! ### Claim C4: the Frobenius norm from tree roots -/

/-- C4: for a QSVE instance built from a square matrix of power-of-two
dimension, `matrix_norm` returns the square root of the sum of the roots of
all row trees, and this value equals the classical Frobenius norm
`sqrt (Σ_ij A_ij²)` of the stored matrix. -/
theorem C4_matrix_norm (m : List (List ℝ)) (k : ℕ) {q : QSVE ℝ}
    (hq : QSVE.ofMatrix? m = some q)
    (hrect : ∀ row ∈ m, row.length = (m.headD []).length)
    (hdim : (m.headD []).length = 2 ^ k) :
    q.matrix_norm Real.sqrt = Real.sqrt ((q.trees.map BinaryTree.root).sum) ∧
    q.matrix_norm Real.sqrt = Real.sqrt (frobeniusNormSq q.matrix) := by
  obtain ⟨hsqr, hpow, hts, hmat, hsh⟩ := ofMatrix?_spec hq
  refine ⟨rfl, ?_⟩
  rw [QSVE.matrix_norm, hmat]
  congr 1
  exact roots_sum_eq m q.trees (fun row hr => by rw [hrect row hr, hdim]) hts

/-! ### Claim C3: the diagonal shift -/

/-- C3: `shift_matrix` is one-shot idempotent — a second call returns the
state of the first call unchanged (matrix, trees and flag); after the first
call the stored matrix is the original plus its Frobenius norm times the
identity, and each row tree's leaf values are the correspondingly shifted row
(the diagonal leaf updated, every other leaf unchanged). -/
theorem C3_shift_idempotent (m : List (List ℝ)) (k : ℕ) {q : QSVE ℝ}
    (hq : QSVE.ofMatrix? m = some q)
    (hrect : ∀ row ∈ m, row.length = (m.headD []).length)
    (hdim : (m.headD []).length = 2 ^ k) :
    QSVE.shift_matrix Real.sqrt (QSVE.shift_matrix Real.sqrt q) =
      QSVE.shift_matrix Real.sqrt q ∧
    (∀ i j, i < m.length → j < m.length →
      ((QSVE.shift_matrix Real.sqrt q).matrix.getD i []).getD j 0 =
        (m.getD i []).getD j 0 +
          (if i = j then Real.sqrt (frobeniusNormSq m) else 0)) ∧
    (∀ i, i < m.length →
      ((QSVE.shift_matrix Real.sqrt q).trees.getD i ⟨[], []⟩).values =
        (m.getD i []).set i
          ((m.getD i []).getD i 0 + Real.sqrt (frobeniusNormSq m))) := by
  obtain ⟨hsqr, hpow, hts, hmat, hsh⟩ := ofMatrix?_spec hq
  have hnorm : q.matrix_norm Real.sqrt = Real.sqrt (frobeniusNormSq m) := by
    rw [QSVE.matrix_norm]
    congr 1
    exact roots_sum_eq m q.trees (fun row hr => by rw [hrect row hr, hdim]) hts
  have hshift : QSVE.shift_matrix Real.sqrt q =
      { matrix := shiftRows (Real.sqrt (frobeniusNormSq m)) 0 m
        trees := shiftTrees m (Real.sqrt (frobeniusNormSq m)) 0 q.trees
        shifted := true } := by
    rw [QSVE.shift_matrix, if_neg (by rw [hsh]; simp), hnorm, hmat]
  refine ⟨?_, ?_, ?_⟩
  · rw [hshift]
    simp [QSVE.shift_matrix]
  · intro i j hi hj
    rw [hshift]
    show ((shiftRows (Real.sqrt (frobeniusNormSq m)) 0 m).getD i []).getD j 0 = _
    rw [shiftRows_getD _ 0 i m hi]
    simp only [Nat.zero_add]
    have hrowlen : (m.getD i []).length = m.length := by
      rw [hrect _ (getD_mem hi), ← hsqr]
    by_cases hij : i = j
    · subst hij
      rw [if_pos rfl, getD_set_self (by omega)]
    · rw [if_neg hij, getD_set_ne hij, add_zero]
  · intro i hi
    rw [hshift]
    show ((shiftTrees m (Real.sqrt (frobeniusNormSq m)) 0 q.trees).getD i ⟨[], []⟩).values = _
    have htlen : q.trees.length = m.length := (treesOfRows?_spec m q.trees hts).1
    rw [shiftTrees_getD m _ 0 i q.trees (by omega)]
    simp only [Nat.zero_add]
    have htree := (treesOfRows?_spec m q.trees hts).2 i hi
    have hrowlen : (m.getD i []).length = 2 ^ k := by
      rw [hrect _ (getD_mem hi), hdim]
    have hvals : (q.trees.getD i ⟨[], []⟩).values = m.getD i [] :=
      (build_spec hrowlen htree).1
    have hset : ((m.getD i []).set i
        ((m.getD i []).getD i 0 + Real.sqrt (frobeniusNormSq m))).length = 2 ^ k := by
      simpa using hrowlen
    rw [BinaryTree.update_entry, hvals, ofVector?_pow_two hset, Option.getD_some]

/-! ### Claim C5: construction error conditions -/

/-- C5 counterexample: the empty vector has length `0`, which is not a power
of two, yet `BinaryTree` construction does not raise — the bit-trick check
`n & (n - 1) == 0` accepts `n = 0` — so the claimed "error iff the length is
not a power of two" fails at this input.  (The matrix half of the claim is
not affected: a 0-by-0 matrix passes the same bit check but `QSVE.__init__`
then raises `OverflowError` at `int(np.log2(0))`.) -/
theorem C5_counterexample :
    (BinaryTree.ofVector? ([] : List ℚ)).isSome = true ∧
    ¬ IsPowTwo ([] : List ℚ).length := by
  refine ⟨rfl, ?_⟩
  rintro ⟨k, hk⟩
  have := pow_pos (show (0 : ℕ) < 2 by norm_num) k
  simp only [List.length_nil] at hk
  omega

/-- C5 amended: for vectors, `BinaryTree` construction raises iff the length
is neither `0` nor a power of two — the bit check accepts the (zero-length)
empty vector, the only deviation from the claim.  For (rectangular) matrices
the claim stands as written: `QSVE` construction raises iff the matrix is not
square or its dimension is not a power of two; dimension `0` passes the bit
check but then raises `OverflowError` at `int(np.log2(0))`. -/
theorem C5_amended_errors (v : List α) (m : List (List α))
    (hrect : ∀ row ∈ m, row.length = (m.headD []).length) :
    (BinaryTree.ofVector? v = none ↔ ¬(v.length = 0 ∨ IsPowTwo v.length)) ∧
    (QSVE.ofMatrix? m = none ↔
      ¬(m.length = (m.headD []).length ∧ IsPowTwo (m.headD []).length)) := by
  constructor
  · constructor
    · intro hnone hdisj
      rw [BinaryTree.ofVector?, if_pos ((powTwoCheck_iff _).mpr hdisj)] at hnone
      exact absurd hnone (by simp)
    · intro hn
      rw [BinaryTree.ofVector?,
        if_neg (fun hc => hn ((powTwoCheck_iff _).mp hc))]
  · by_cases hsq : m.length = (m.headD []).length
    · by_cases hp : powTwoCheck (m.headD []).length = true
      · by_cases hz : (m.headD []).length = 0
        · rw [QSVE.ofMatrix?, if_neg (by omega), if_neg (by simpa using hp), if_pos hz]
          refine ⟨fun _ hcon => ?_, fun _ => rfl⟩
          obtain ⟨k, hk⟩ := hcon.2
          have := pow_pos (show (0 : ℕ) < 2 by norm_num) k
          omega
        · have hpow : IsPowTwo (m.headD []).length := by
            rcases (powTwoCheck_iff _).mp hp with h0 | h
            · exact absurd h0 hz
            · exact h
          have hsome := treesOfRows?_isSome m (fun row hr => by
            rw [BinaryTree.ofVector?, if_pos (by rw [hrect row hr]; exact hp)]
            rfl)
          obtain ⟨ts, hts⟩ := Option.isSome_iff_exists.mp hsome
          rw [QSVE.ofMatrix?, if_neg (by omega), if_neg (by simpa using hp),
            if_neg hz, hts]
          constructor
          · intro h
            exact absurd h (by simp)
          · intro hcon
            exact absurd ⟨hsq, hpow⟩ hcon
      · rw [QSVE.ofMatrix?, if_neg (by omega), if_pos (by simpa using hp)]
        exact ⟨fun _ hcon => hp ((powTwoCheck_iff _).mpr (Or.inr hcon.2)), fun _ => rfl⟩
    · rw [QSVE.ofMatrix?, if_pos hsq]
      exact ⟨fun _ ⟨h1, _⟩ => hsq h1, fun _ => rfl⟩

/-! ### Claim C2: the rotation angles of the preparation circuit -/

/-- numpy `np.isclose(x, 0.0)` with the default tolerances:
`|x - 0| ≤ atol + rtol * |0| = 1e-8`. -/
def npIsCloseZero (x : α) : Prop := |x| ≤ 1 / 100000000

instance (x : α) : Decidable (npIsCloseZero x) := by
  unfold npIsCloseZero
  infer_instance

/-- Symbolic form of the rotation angle `theta` computed in
`BinaryTree.preparation_circuit`, with `r = left_child / parent`:
`acos2 r` is `2·arccos(√r)`, `asin2AddPi r` is `2·arcsin(√r) + π`,
`asin2SubPi r` is `2·arcsin(√r) − π`, and `acos2AddPi r` is
`2·arccos(√r) + π`. -/
inductive AngleExpr (α : Type) where
  | acos2 (r : α)
  | asin2AddPi (r : α)
  | asin2SubPi (r : α)
  | acos2AddPi (r : α)
deriving DecidableEq

/-- One multi-controlled Y-rotation emitted by `preparation_circuit` for tree
node `(level, index)`: the symbolic angle, and whether the rotation is
preceded by a multi-controlled bit flip on the target qubit (`mct_flag`). -/
structure RotationGate (α : Type) where
  level : ℕ
  index : ℕ
  theta : AngleExpr α
  mct : Bool
deriving DecidableEq

/-- The body of the node loop of `BinaryTree.preparation_circuit`: `parent =
self._tree[level][index]`, `left_child = self.left_child_value(level, index)`
(which equals `self._tree[level + 1][2 * index]` for every loop level), the
`np.isclose(parent, 0.0)` skip, the default angle `2·arccos(√(left/parent))`,
and — on the last looped row — the sign-dependent replacement of the angle
together with the `mct_flag`.  The control bookkeeping (path bitstring and
surrounding X gates), which the claim does not mention, is not modelled. -/
def nodeGate (t : BinaryTree α) (level index : ℕ) : Option (RotationGate α) :=
  if npIsCloseZero (t.get_element level index) then none
  else if level = t.number_levels - 2 then
    if t.values.getD (2 * index) 0 < 0 ∧ 0 < t.values.getD (2 * index + 1) 0 then
      some ⟨level, index, AngleExpr.asin2AddPi
        (t.get_element (level + 1) (2 * index) / t.get_element level index), false⟩
    else if 0 < t.values.getD (2 * index) 0 ∧ t.values.getD (2 * index + 1) 0 < 0 then
      some ⟨level, index, AngleExpr.asin2SubPi
        (t.get_element (level + 1) (2 * index) / t.get_element level index), false⟩
    else if t.values.getD (2 * index) 0 < 0 ∧ t.values.getD (2 * index + 1) 0 < 0 then
      some ⟨level, index, AngleExpr.acos2AddPi
        (t.get_element (level + 1) (2 * index) / t.get_element level index), true⟩
    else
      some ⟨level, index, AngleExpr.acos2
        (t.get_element (level + 1) (2 * index) / t.get_element level index), false⟩
  else
    some ⟨level, index, AngleExpr.acos2
      (t.get_element (level + 1) (2 * index) / t.get_element level index), false⟩

/-- The rotation sequence of `preparation_circuit`: the node loop
`for level in range(0, self.number_levels - 1): for index in
range(len(self._tree[level]))`, keeping the emitted rotations in order. -/
def prep_rotations (t : BinaryTree α) : List (RotationGate α) :=
  (List.range (t.number_levels - 1)).flatMap fun level =>
    (List.range (t.get_level level).length).filterMap fun index => nodeGate t level index

/-- C2: in the rotation sequence emitted by `preparation_circuit`, a node at
a non-terminal level is skipped exactly when its value (the parent of the
rotation) is numpy-close to zero; an emitted non-deepest-level rotation has
angle `θ = 2·arccos(√(left/parent))`, which satisfies `cos²(θ/2) =
left/parent`; and at the deepest non-terminal level the angle follows the
sign table of the two leaf children, with the multi-controlled bit flip
exactly in the both-negative case. -/
theorem C2_rotation_angles (v : List ℝ) (k : ℕ) {t : BinaryTree ℝ}
    (hlen : v.length = 2 ^ k) (ht : BinaryTree.ofVector? v = some t) :
    ∀ level index, level < t.number_levels - 1 → index < (t.get_level level).length →
      (npIsCloseZero (t.get_element level index) → nodeGate t level index = none) ∧
      (¬ npIsCloseZero (t.get_element level index) →
        (∀ g, nodeGate t level index = some g → g ∈ prep_rotations t) ∧
        (level < t.number_levels - 2 →
          nodeGate t level index = some ⟨level, index,
            AngleExpr.acos2
              (t.get_element (level + 1) (2 * index) / t.get_element level index),
            false⟩ ∧
          Real.cos (2 * Real.arccos (Real.sqrt
              (t.get_element (level + 1) (2 * index) / t.get_element level index)) / 2) ^ 2 =
            t.get_element (level + 1) (2 * index) / t.get_element level index) ∧
        (level = t.number_levels - 2 →
          (v.getD (2 * index) 0 < 0 ∧ 0 < v.getD (2 * index + 1) 0 →
            nodeGate t level index = some ⟨level, index, AngleExpr.asin2AddPi
              (t.get_element (level + 1) (2 * index) / t.get_element level index),
              false⟩) ∧
          (0 < v.getD (2 * index) 0 ∧ v.getD (2 * index + 1) 0 < 0 →
            nodeGate t level index = some ⟨level, index, AngleExpr.asin2SubPi
              (t.get_element (level + 1) (2 * index) / t.get_element level index),
              false⟩) ∧
          (v.getD (2 * index) 0 < 0 ∧ v.getD (2 * index + 1) 0 < 0 →
            nodeGate t level index = some ⟨level, index, AngleExpr.acos2AddPi
              (t.get_element (level + 1) (2 * index) / t.get_element level index),
              true⟩) ∧
          (0 < v.getD (2 * index) 0 ∧ 0 < v.getD (2 * index + 1) 0 →
            nodeGate t level index = some ⟨level, index, AngleExpr.acos2
              (t.get_element (level + 1) (2 * index) / t.get_element level index),
              false⟩))) := by
  intro level index hlevel hindex
  have hnl := number_levels_eq hlen ht
  have hvals : t.values = v := (build_spec hlen ht).1
  have hlk : level < k := by omega
  constructor
  · intro hclose
    rw [nodeGate, if_pos hclose]
  · intro hclose
    refine ⟨?_, ?_, ?_⟩
    · intro g hg
      exact List.mem_flatMap.mpr ⟨level, List.mem_range.mpr hlevel,
        List.mem_filterMap.mpr ⟨index, List.mem_range.mpr hindex, hg⟩⟩
    · intro hlev2
      have hne : level ≠ t.number_levels - 2 := by omega
      refine ⟨by rw [nodeGate, if_neg hclose, if_neg hne], ?_⟩
      -- the parent is positive and at least the left child
      have hpar : t.get_element level index =
          t.get_element (level + 1) (2 * index) +
            t.get_element (level + 1) (2 * index + 1) :=
        get_element_children hlen ht level index hlk
      have hL : 0 ≤ t.get_element (level + 1) (2 * index) :=
        get_element_nonneg hlen ht (level + 1) (2 * index) (by omega)
      have hR : 0 ≤ t.get_element (level + 1) (2 * index + 1) :=
        get_element_nonneg hlen ht (level + 1) (2 * index + 1) (by omega)
      have hP : 0 < t.get_element level index := by
        have habs : ¬ |t.get_element level index| ≤ 1 / 100000000 := hclose
        have : 0 ≤ t.get_element level index := by rw [hpar]; linarith
        rw [abs_of_nonneg this] at habs
        linarith
      have hr0 : 0 ≤ t.get_element (level + 1) (2 * index) / t.get_element level index :=
        div_nonneg hL hP.le
      have hr1 : t.get_element (level + 1) (2 * index) / t.get_element level index ≤ 1 := by
        rw [div_le_one hP]
        linarith [hpar, hR]
      have harg : 2 * Real.arccos (Real.sqrt
            (t.get_element (level + 1) (2 * index) / t.get_element level index)) / 2 =
          Real.arccos (Real.sqrt
            (t.get_element (level + 1) (2 * index) / t.get_element level index)) := by
        ring
      rw [harg, Real.cos_arccos (le_trans (by norm_num) (Real.sqrt_nonneg _))
        (Real.sqrt_le_one.mpr hr1), Real.sq_sqrt hr0]
    · intro hdeep
      rw [← hvals]
      refine ⟨?_, ?_, ?_, ?_⟩
      · intro hsgn
        rw [nodeGate, if_neg hclose, if_pos hdeep, if_pos hsgn]
      · intro hsgn
        have hn1 : ¬ (t.values.getD (2 * index) 0 < 0 ∧
            0 < t.values.getD (2 * index + 1) 0) := by
          rintro ⟨h1, _⟩
          linarith [hsgn.1]
        rw [nodeGate, if_neg hclose, if_pos hdeep, if_neg hn1, if_pos hsgn]
      · intro hsgn
        have hn1 : ¬ (t.values.getD (2 * index) 0 < 0 ∧
            0 < t.values.getD (2 * index + 1) 0) := by
          rintro ⟨_, h2⟩
          linarith [hsgn.2]
        have hn2 : ¬ (0 < t.values.getD (2 * index) 0 ∧
            t.values.getD (2 * index + 1) 0 < 0) := by
          rintro ⟨h1, _⟩
          linarith [hsgn.1]
        rw [nodeGate, if_neg hclose, if_pos hdeep, if_neg hn1, if_neg hn2, if_pos hsgn]
      · intro hsgn
        have hn1 : ¬ (t.values.getD (2 * index) 0 < 0 ∧
            0 < t.values.getD (2 * index + 1) 0) := by
          rintro ⟨h1, _⟩
          linarith [hsgn.1]
        have hn2 : ¬ (0 < t.values.getD (2 * index) 0 ∧
            t.values.getD (2 * index + 1) 0 < 0) := by
          rintro ⟨_, h2⟩
          linarith [hsgn.2]
        have hn3 : ¬ (t.values.getD (2 * index) 0 < 0 ∧
            t.values.getD (2 * index + 1) 0 < 0) := by
          rintro ⟨h1, _⟩
          linarith [hsgn.1]
        rw [nodeGate, if_neg hclose, if_pos hdeep, if_neg hn1, if_neg hn2, if_neg hn3]

/-! ### Claim C6: control-key validation in preparation_circuit -/

/-- The `control_key` argument of `preparation_circuit`: a Python `int`, a
Python `str` (as a list of characters), or a value of any other type. -/
inductive ControlKey where
  | int (k : ℤ)
  | str (s : List Char)
  | other
deriving DecidableEq

/-- The `poswidth` computed by numpy `np.binary_repr` for a negative `num`:
the bit length of `-num`, reduced by one when `-num` is an exact power of
two. -/
def npBinaryReprPoswidth (num : ℤ) : ℕ :=
  if 2 ^ ((Nat.toDigits 2 (-num).toNat).length - 1) = (-num).toNat then
    (Nat.toDigits 2 (-num).toNat).length - 1
  else
    (Nat.toDigits 2 (-num).toNat).length

/-- numpy `np.binary_repr(num, width)` with an explicit `width`.  For
`num = 0` it returns `'0' * (width or 1)`; for positive `num`, the binary
digits of `num` left-padded with `'0'` to `width` (longer when the digits do
not fit); for negative `num`, the two's complement `2^(poswidth + 1) + num`
left-padded with `'1'`. -/
def npBinaryRepr (num : ℤ) (width : ℕ) : List Char :=
  if num = 0 then List.replicate (max width 1) '0'
  else if 0 < num then
    List.replicate (width - (Nat.toDigits 2 num.toNat).length) '0' ++
      Nat.toDigits 2 num.toNat
  else
    List.replicate
        (width - (Nat.toDigits 2
          (2 ^ (npBinaryReprPoswidth num + 1) + num).toNat).length) '1' ++
      Nat.toDigits 2 (2 ^ (npBinaryReprPoswidth num + 1) + num).toNat

/-- The `control_key` validation of `preparation_circuit` for a control
register of `n` qubits: the type check (`int` or `str`), the integer-range
check `if 0 > control_key > max_control_key` — a Python chained comparison,
i.e. the conjunction of `0 > key` and `key > 2^n`, which is never true — the
conversion `np.binary_repr(control_key, n)` of an integer key to a string,
and the string length check.  Returns the final key string when no
`ValueError` is raised, `none` when one is.  (The accepted string's
characters are never checked to be `'0'`/`'1'`.) -/
def validateControlKey (n : ℕ) (key : ControlKey) : Option (List Char) :=
  match key with
  | ControlKey.other => none
  | ControlKey.int k =>
    if 0 > k ∧ k > 2 ^ n then none
    else if (npBinaryRepr k n).length ≠ n then none
    else some (npBinaryRepr k n)
  | ControlKey.str s => if s.length ≠ n then none else some s

/-- C6: `preparation_circuit` does not reject out-of-range integer keys as
claimed: the dead chained comparison lets the negative key `-1` through for a
one-qubit control register (it silently becomes the two's-complement pattern
`"1"`), and the non-binary string `"ab"` of matching length is accepted too,
although `-1 ∉ [0, 2^1)`. -/
theorem C6_control_key_accepts_invalid :
    validateControlKey 1 (ControlKey.int (-1)) = some ['1'] ∧
    validateControlKey 2 (ControlKey.str ['a', 'b']) = some ['a', 'b'] ∧
    ¬ (0 : ℤ) ≤ -1 := by
  refine ⟨by decide, by decide, by norm_num⟩

/-! ### Claim C8: the number of representable singular-value outcomes -/

/-- Modelled from the spec: `QSVE.convert_measured` (the method itself is not
under `src/`; only its test callers are) maps a measured fraction in `[0, 1)`
to a signed phase in `(-1/2, 1/2]` — the fraction itself when it is at most
`1/2`, otherwise the fraction minus one. -/
def convert_measured (x : ℚ) : ℚ := if x ≤ 1 / 2 then x else x - 1

/-- Modelled from the spec: `QSVE.possible_estimated_singular_values(p)` (not
under `src/`; only its test caller is).  The spec derives the outcomes from
`cos(πk/2^p)` for achievable `k`: a measured `p`-bit string with value `k`
decodes to the signed phase `convert_measured(k/2^p)`, and the normalized
singular-value outcome `cos(π·phase)` is determined by `|phase|` alone,
injectively, since the cosine is even and strictly decreasing on `[0, π/2]`
while `|phase| ≤ 1/2`.  The distinct outcomes are therefore enumerated by the
distinct magnitudes `|convert_measured(k/2^p)|`. -/
def possible_estimated_singular_values (p : ℕ) : Finset ℚ :=
  (Finset.range (2 ^ p)).image fun j : ℕ => |convert_measured ((j : ℚ) / 2 ^ p)|

/-- C8: for every precision-bit count `p ≥ 1` (in particular for `p = 1..9`),
`possible_estimated_singular_values p` holds exactly `2^(p-1) + 1` distinct
outcomes, independent of any particular matrix. -/
theorem C8_possible_singular_value_count (p : ℕ) (hp : 1 ≤ p) :
    (possible_estimated_singular_values p).card = 2 ^ (p - 1) + 1 := by
  have h2p : (0 : ℚ) < 2 ^ p := by positivity
  have hsplit : (2 : ℕ) ^ p = 2 ^ (p - 1) * 2 := by
    rw [← pow_succ]
    congr 1
    omega
  have hb1 : 1 ≤ 2 ^ (p - 1) := Nat.one_le_two_pow
  have hhalf : ∀ j : ℕ, ((j : ℚ) / 2 ^ p ≤ 1 / 2 ↔ 2 * j ≤ 2 ^ p) := by
    intro j
    rw [div_le_div_iff h2p (by norm_num : (0 : ℚ) < 2)]
    constructor
    · intro h
      have : ((2 * j : ℕ) : ℚ) ≤ ((2 ^ p : ℕ) : ℚ) := by push_cast; linarith
      exact_mod_cast this
    · intro h
      have : ((2 * j : ℕ) : ℚ) ≤ ((2 ^ p : ℕ) : ℚ) := by exact_mod_cast h
      push_cast at this
      linarith
  have himg : possible_estimated_singular_values p =
      (Finset.range (2 ^ (p - 1) + 1)).image fun j : ℕ => (j : ℚ) / 2 ^ p := by
    ext x
    simp only [possible_estimated_singular_values, Finset.mem_image, Finset.mem_range]
    constructor
    · rintro ⟨j, hj, rfl⟩
      by_cases hj2 : 2 * j ≤ 2 ^ p
      · refine ⟨j, by omega, ?_⟩
        rw [convert_measured, if_pos ((hhalf j).mpr hj2),
          abs_of_nonneg (by positivity)]
      · refine ⟨2 ^ p - j, by omega, ?_⟩
        have hgt : ¬ (j : ℚ) / 2 ^ p ≤ 1 / 2 := fun hc => hj2 ((hhalf j).mp hc)
        rw [convert_measured, if_neg hgt]
        have hjle : (j : ℚ) ≤ 2 ^ p := by
          have : ((j : ℕ) : ℚ) ≤ ((2 ^ p : ℕ) : ℚ) := by exact_mod_cast (by omega : j ≤ 2 ^ p)
          push_cast at this
          linarith
        have hnp : (j : ℚ) / 2 ^ p - 1 ≤ 0 := by
          rw [sub_nonpos, div_le_one h2p]
          exact hjle
        rw [abs_of_nonpos hnp]
        have hcast : ((2 ^ p - j : ℕ) : ℚ) = 2 ^ p - j := by
          push_cast [Nat.cast_sub (by omega : j ≤ 2 ^ p)]
          ring
        rw [hcast]
        field_simp
    · rintro ⟨j, hj, rfl⟩
      refine ⟨j, by omega, ?_⟩
      have hle : 2 * j ≤ 2 ^ p := by omega
      rw [convert_measured, if_pos ((hhalf j).mpr hle),
        abs_of_nonneg (by positivity)]
  rw [himg, Finset.card_image_of_injective _ (fun a b hab => by
    have : ((a : ℕ) : ℚ) = b := by
      field_simp at hab
      exact_mod_cast hab
    exact_mod_cast this), Finset.card_range]

/-! ### Claim C10: no mutation of the caller's matrix -/

/-- A heap of matrix objects, to make Python aliasing explicit: the caller's
matrix and the instance's `self._matrix` are separate heap cells exactly
because of the `deepcopy` in `QSVE.__init__`. -/
structure Heap (α : Type) where
  store : List (List (List α))
deriving DecidableEq

/-- Dereference a matrix object. -/
def Heap.read (h : Heap α) (r : ℕ) : List (List α) := h.store.getD r []

/-- Overwrite a matrix object in place (Python's `self._matrix[i][j] = ...`,
lifted to replacing the whole stored value of that one object). -/
def Heap.write (h : Heap α) (r : ℕ) (v : List (List α)) : Heap α :=
  ⟨h.store.set r v⟩

/-- Allocate a fresh matrix object (Python's `deepcopy`). -/
def Heap.alloc (h : Heap α) (v : List (List α)) : Heap α × ℕ :=
  (⟨h.store ++ [v]⟩, h.store.length)

/-- A `QSVE` instance in the reference model used for the aliasing claim: the
matrix field holds a heap reference instead of a value; trees and flag are as
in `QSVE`. -/
structure QSVERef (α : Type) where
  matrixRef : ℕ
  trees : List (BinaryTree α)
  shifted : Bool
deriving DecidableEq

/-- `QSVE.__init__` in the reference model: the caller passes a reference to
its matrix object; after the dimension checks — including the
`OverflowError` that `int(np.log2(ncols))` raises when `ncols = 0` —
`self._matrix = deepcopy(matrix)` allocates a fresh heap cell holding a copy
of the value, and the trees are built from the rows (each `BinaryTree`
likewise copying its row into `self._values`). -/
def QSVE.initRef (h : Heap α) (callerRef : ℕ) : Option (Heap α × QSVERef α) :=
  if (h.read callerRef).length ≠ ((h.read callerRef).headD []).length then none
  else if ¬ powTwoCheck ((h.read callerRef).headD []).length then none
  else if ((h.read callerRef).headD []).length = 0 then none
  else
    match treesOfRows? (h.read callerRef) with
    | none => none
    | some trees =>
      some ((h.alloc (h.read callerRef)).1,
        ⟨(h.alloc (h.read callerRef)).2, trees, false⟩)

/-- `QSVE.shift_matrix` in the reference model: a no-op when the flag is set;
otherwise it reads and writes the matrix only through the instance's own
reference. -/
def QSVE.shiftRef (sqrt : α → α) (h : Heap α) (s : QSVERef α) : Heap α × QSVERef α :=
  if s.shifted then (h, s)
  else
    (h.write s.matrixRef
        (shiftRows (sqrt ((s.trees.map BinaryTree.root).sum)) 0 (h.read s.matrixRef)),
      ⟨s.matrixRef,
        shiftTrees (h.read s.matrixRef)
          (sqrt ((s.trees.map BinaryTree.root).sum)) 0 s.trees,
        true⟩)

/-- `n` successive `shift_matrix` calls on an instance. -/
def QSVE.shiftIter (sqrt : α → α) : ℕ → Heap α × QSVERef α → Heap α × QSVERef α
  | 0, p => p
  | n + 1, p => QSVE.shiftIter sqrt n (QSVE.shiftRef sqrt p.1 p.2)

/-- C10: QSVE never mutates its caller's data — construction deep-copies the
input matrix into a freshly allocated heap cell, and every later
`shift_matrix` call writes only through the instance's own reference, so
after construction and any number of shift calls the caller's matrix object
is unchanged. -/
theorem C10_no_caller_mutation (sqrt : α → α) (h : Heap α) (callerRef : ℕ)
    (hvalid : callerRef < h.store.length) {h' : Heap α} {s : QSVERef α}
    (hinit : QSVE.initRef h callerRef = some (h', s)) (n : ℕ) :
    (QSVE.shiftIter sqrt n (h', s)).1.read callerRef = h.read callerRef := by
  have hfields : h'.store = h.store ++ [h.read callerRef] ∧
      s.matrixRef = h.store.length := by
    rw [QSVE.initRef] at hinit
    split at hinit
    · exact absurd hinit (by simp)
    · split at hinit
      · exact absurd hinit (by simp)
      · split at hinit
        · exact absurd hinit (by simp)
        · cases hts : treesOfRows? (h.read callerRef) with
          | none => rw [hts] at hinit; exact absurd hinit (by simp)
          | some ts =>
            rw [hts] at hinit
            simp only [Heap.alloc, Option.some.injEq, Prod.mk.injEq] at hinit
            obtain ⟨hh', hs⟩ := hinit
            exact ⟨by rw [← hh'], by rw [← hs]⟩
  have hread : h'.read callerRef = h.read callerRef := by
    rw [Heap.read, hfields.1, List.getD_eq_getElem?_getD, List.getElem?_append_left hvalid,
      ← List.getD_eq_getElem?_getD, Heap.read]
  -- invariant: the caller's cell is preserved and the instance reference is fixed
  have key : ∀ (n : ℕ) (hh : Heap α) (ss : QSVERef α),
      hh.read callerRef = h.read callerRef → ss.matrixRef = h.store.length →
      (QSVE.shiftIter sqrt n (hh, ss)).1.read callerRef = h.read callerRef ∧
      (QSVE.shiftIter sqrt n (hh, ss)).2.matrixRef = h.store.length := by
    intro n
    induction n with
    | zero => exact fun hh ss h1 h2 => ⟨h1, h2⟩
    | succ n ih =>
      intro hh ss h1 h2
      rw [QSVE.shiftIter]
      cases hsh : ss.shifted with
      | true =>
        rw [QSVE.shiftRef, if_pos hsh]
        exact ih hh ss h1 h2
      | false =>
        rw [QSVE.shiftRef, if_neg (by rw [hsh]; simp)]
        apply ih
        · rw [Heap.read, Heap.write, getD_set_ne (show ss.matrixRef ≠ callerRef by omega),
            ← Heap.read, h1]
        · show ss.matrixRef = h.store.length
          exact h2
  exact (key n h' s hread hfields.2).1

/-! ### Witnesses at concrete inputs -/

theorem C1_witness :
    ([3, -4] : List ℚ).length = 2 ^ 1 ∧
    (∃ t : BinaryTree ℚ, BinaryTree.ofVector? ([3, -4] : List ℚ) = some t ∧
      t.root = (([3, -4] : List ℚ).map fun x => x ^ 2).sum ∧
      t.get_level (t.number_levels - 1) = ([3, -4] : List ℚ).map (fun x => |x| ^ 2) ∧
      ∀ l i, l + 1 < t.number_levels → i < (t.get_level l).length →
        ∃ a b, t.left_child_value l i = some a ∧ t.right_child_value l i = some b ∧
          t.get_element l i = a + b) :=
  ⟨by decide, C1_tree_invariants [3, -4] 1 (by decide)⟩

theorem C9_witness :
    (([2, -2] : List ℚ).length = 2 ^ 1 ∧ 2 ≤ ([2, -2] : List ℚ).length) ∧
    (∃ t : BinaryTree ℚ, BinaryTree.ofVector? ([2, -2] : List ℚ) = some t ∧
      t.data.length = t.number_levels + 1 ∧
      t.data.getD (t.number_levels - 1) [] = ([2, -2] : List ℚ).map (fun x => |x| ^ 2) ∧
      t.data.getD t.number_levels [] = ([2, -2] : List ℚ).map npSign ∧
      t.get_level t.number_levels = ([2, -2] : List ℚ).map npSign) :=
  ⟨⟨by decide, by decide⟩, C9_sign_row [2, -2] 1 (by decide) (by decide)⟩

theorem C7_witness :
    (([1, 2] : List ℚ).length = 2 ^ 1 ∧ 0 < ([1, 2] : List ℚ).length ∧
      BinaryTree.ofVector? ([1, 2] : List ℚ) =
        some ⟨[1, 2], [[5], [1, 4], [1, 1]]⟩) ∧
    (∃ t' : BinaryTree ℚ,
      (BinaryTree.mk ([1, 2] : List ℚ) [[5], [1, 4], [1, 1]]).update_entry 0 6 = some t' ∧
      BinaryTree.ofVector? (([1, 2] : List ℚ).set 0 6) = some t') :=
  ⟨⟨by decide, by decide,
      by norm_num [BinaryTree.ofVector?, powTwoCheck, sumLoop, sumAdjacent, npSign]⟩,
    C7_update_entry [1, 2] 1 0 6 (by decide) (by decide)
      (by norm_num [BinaryTree.ofVector?, powTwoCheck, sumLoop, sumAdjacent, npSign])⟩

theorem C5_witness :
    (∀ row ∈ ([[1, 2], [3, 4]] : List (List ℚ)),
      row.length = (([[1, 2], [3, 4]] : List (List ℚ)).headD []).length) ∧
    ((BinaryTree.ofVector? ([1, 2, 3] : List ℚ) = none ↔
        ¬(([1, 2, 3] : List ℚ).length = 0 ∨ IsPowTwo ([1, 2, 3] : List ℚ).length)) ∧
      (QSVE.ofMatrix? ([[1, 2], [3, 4]] : List (List ℚ)) = none ↔
        ¬(([[1, 2], [3, 4]] : List (List ℚ)).length =
            (([[1, 2], [3, 4]] : List (List ℚ)).headD []).length ∧
          IsPowTwo (([[1, 2], [3, 4]] : List (List ℚ)).headD []).length))) :=
  ⟨by decide, C5_amended_errors [1, 2, 3] [[1, 2], [3, 4]] (by decide)⟩

theorem C8_witness :
    1 ≤ 3 ∧ (possible_estimated_singular_values 3).card = 2 ^ (3 - 1) + 1 :=
  ⟨by decide, C8_possible_singular_value_count 3 (by decide)⟩

/-- Concrete tree used by the C2 witness: the tree of `[1, 1, 1, 1]`. -/
def witnessTreeC2 : BinaryTree ℝ :=
  ⟨[1, 1, 1, 1], [[4], [2, 2], [1, 1, 1, 1], [1, 1, 1, 1]]⟩

theorem witnessTreeC2_built :
    BinaryTree.ofVector? ([1, 1, 1, 1] : List ℝ) = some witnessTreeC2 := by
  norm_num [BinaryTree.ofVector?, powTwoCheck, sumLoop, sumAdjacent, npSign,
    witnessTreeC2, (by decide : (4 : ℕ) &&& 3 = 0)]

theorem C2_witness :
    (([1, 1, 1, 1] : List ℝ).length = 2 ^ 2 ∧
      BinaryTree.ofVector? ([1, 1, 1, 1] : List ℝ) = some witnessTreeC2) ∧
    (∀ level index, level < witnessTreeC2.number_levels - 1 →
      index < (witnessTreeC2.get_level level).length →
      (npIsCloseZero (witnessTreeC2.get_element level index) →
        nodeGate witnessTreeC2 level index = none) ∧
      (¬ npIsCloseZero (witnessTreeC2.get_element level index) →
        (∀ g, nodeGate witnessTreeC2 level index = some g →
          g ∈ prep_rotations witnessTreeC2) ∧
        (level < witnessTreeC2.number_levels - 2 →
          nodeGate witnessTreeC2 level index = some ⟨level, index,
            AngleExpr.acos2 (witnessTreeC2.get_element (level + 1) (2 * index) /
              witnessTreeC2.get_element level index), false⟩ ∧
          Real.cos (2 * Real.arccos (Real.sqrt
              (witnessTreeC2.get_element (level + 1) (2 * index) /
                witnessTreeC2.get_element level index)) / 2) ^ 2 =
            witnessTreeC2.get_element (level + 1) (2 * index) /
              witnessTreeC2.get_element level index) ∧
        (level = witnessTreeC2.number_levels - 2 →
          (([1, 1, 1, 1] : List ℝ).getD (2 * index) 0 < 0 ∧
              0 < ([1, 1, 1, 1] : List ℝ).getD (2 * index + 1) 0 →
            nodeGate witnessTreeC2 level index = some ⟨level, index,
              AngleExpr.asin2AddPi (witnessTreeC2.get_element (level + 1) (2 * index) /
                witnessTreeC2.get_element level index), false⟩) ∧
          (0 < ([1, 1, 1, 1] : List ℝ).getD (2 * index) 0 ∧
              ([1, 1, 1, 1] : List ℝ).getD (2 * index + 1) 0 < 0 →
            nodeGate witnessTreeC2 level index = some ⟨level, index,
              AngleExpr.asin2SubPi (witnessTreeC2.get_element (level + 1) (2 * index) /
                witnessTreeC2.get_element level index), false⟩) ∧
          (([1, 1, 1, 1] : List ℝ).getD (2 * index) 0 < 0 ∧
              ([1, 1, 1, 1] : List ℝ).getD (2 * index + 1) 0 < 0 →
            nodeGate witnessTreeC2 level index = some ⟨level, index,
              AngleExpr.acos2AddPi (witnessTreeC2.get_element (level + 1) (2 * index) /
                witnessTreeC2.get_element level index), true⟩) ∧
          (0 < ([1, 1, 1, 1] : List ℝ).getD (2 * index) 0 ∧
              0 < ([1, 1, 1, 1] : List ℝ).getD (2 * index + 1) 0 →
            nodeGate witnessTreeC2 level index = some ⟨level, index,
              AngleExpr.acos2 (witnessTreeC2.get_element (level + 1) (2 * index) /
                witnessTreeC2.get_element level index), false⟩)))) :=
  ⟨⟨rfl, witnessTreeC2_built⟩,
    C2_rotation_angles [1, 1, 1, 1] 2 rfl witnessTreeC2_built⟩

/-- Concrete QSVE instance used by the C3 and C4 witnesses: built from the
2-by-2 identity matrix. -/
def witnessQ : QSVE ℝ :=
  ⟨[[1, 0], [0, 1]],
    [⟨[1, 0], [[1], [1, 0], [1, 0]]⟩, ⟨[0, 1], [[1], [0, 1], [0, 1]]⟩], false⟩

theorem witnessQ_built :
    QSVE.ofMatrix? ([[1, 0], [0, 1]] : List (List ℝ)) = some witnessQ := by
  norm_num [QSVE.ofMatrix?, treesOfRows?, BinaryTree.ofVector?, powTwoCheck,
    sumLoop, sumAdjacent, npSign, witnessQ, (by decide : (2 : ℕ) &&& 1 = 0)]

theorem witnessQ_rect :
    ∀ row ∈ ([[1, 0], [0, 1]] : List (List ℝ)),
      row.length = (([[1, 0], [0, 1]] : List (List ℝ)).headD []).length := by
  intro row hr
  simp only [List.mem_cons, List.not_mem_nil, or_false] at hr
  rcases hr with rfl | rfl <;> rfl

theorem C4_witness :
    (QSVE.ofMatrix? ([[1, 0], [0, 1]] : List (List ℝ)) = some witnessQ ∧
      (∀ row ∈ ([[1, 0], [0, 1]] : List (List ℝ)),
        row.length = (([[1, 0], [0, 1]] : List (List ℝ)).headD []).length) ∧
      (([[1, 0], [0, 1]] : List (List ℝ)).headD []).length = 2 ^ 1) ∧
    (witnessQ.matrix_norm Real.sqrt =
        Real.sqrt ((witnessQ.trees.map BinaryTree.root).sum) ∧
      witnessQ.matrix_norm Real.sqrt = Real.sqrt (frobeniusNormSq witnessQ.matrix)) :=
  ⟨⟨witnessQ_built, witnessQ_rect, rfl⟩,
    C4_matrix_norm [[1, 0], [0, 1]] 1 witnessQ_built witnessQ_rect rfl⟩

theorem C3_witness :
    (QSVE.ofMatrix? ([[1, 0], [0, 1]] : List (List ℝ)) = some witnessQ ∧
      (∀ row ∈ ([[1, 0], [0, 1]] : List (List ℝ)),
        row.length = (([[1, 0], [0, 1]] : List (List ℝ)).headD []).length) ∧
      (([[1, 0], [0, 1]] : List (List ℝ)).headD []).length = 2 ^ 1) ∧
    (QSVE.shift_matrix Real.sqrt (QSVE.shift_matrix Real.sqrt witnessQ) =
        QSVE.shift_matrix Real.sqrt witnessQ ∧
      (∀ i j, i < ([[1, 0], [0, 1]] : List (List ℝ)).length →
        j < ([[1, 0], [0, 1]] : List (List ℝ)).length →
        ((QSVE.shift_matrix Real.sqrt witnessQ).matrix.getD i []).getD j 0 =
          (([[1, 0], [0, 1]] : List (List ℝ)).getD i []).getD j 0 +
            (if i = j then
              Real.sqrt (frobeniusNormSq ([[1, 0], [0, 1]] : List (List ℝ))) else 0)) ∧
      (∀ i, i < ([[1, 0], [0, 1]] : List (List ℝ)).length →
        ((QSVE.shift_matrix Real.sqrt witnessQ).trees.getD i ⟨[], []⟩).values =
          (([[1, 0], [0, 1]] : List (List ℝ)).getD i []).set i
            ((([[1, 0], [0, 1]] : List (List ℝ)).getD i []).getD i 0 +
              Real.sqrt (frobeniusNormSq ([[1, 0], [0, 1]] : List (List ℝ)))))) :=
  ⟨⟨witnessQ_built, witnessQ_rect, rfl⟩,
    C3_shift_idempotent [[1, 0], [0, 1]] 1 witnessQ_built witnessQ_rect rfl⟩

theorem C10_witness :
    (0 < (⟨[[[1, 0], [0, 1]]]⟩ : Heap ℚ).store.length ∧
      QSVE.initRef (⟨[[[1, 0], [0, 1]]]⟩ : Heap ℚ) 0 =
        some (⟨[[[1, 0], [0, 1]], [[1, 0], [0, 1]]]⟩,
          ⟨1, [⟨[1, 0], [[1], [1, 0], [1, 0]]⟩, ⟨[0, 1], [[1], [0, 1], [0, 1]]⟩], false⟩)) ∧
    (QSVE.shiftIter id 3 (⟨[[[1, 0], [0, 1]], [[1, 0], [0, 1]]]⟩,
        ⟨1, [⟨[1, 0], [[1], [1, 0], [1, 0]]⟩,
          ⟨[0, 1], [[1], [0, 1], [0, 1]]⟩], false⟩)).1.read 0 =
      (⟨[[[1, 0], [0, 1]]]⟩ : Heap ℚ).read 0 :=
  ⟨⟨by decide,
      by norm_num [QSVE.initRef, Heap.read, Heap.alloc, treesOfRows?,
        BinaryTree.ofVector?, powTwoCheck, sumLoop, sumAdjacent, npSign]⟩,
    C10_no_caller_mutation id _ 0 (by decide)
      (by norm_num [QSVE.initRef, Heap.read, Heap.alloc, treesOfRows?,
        BinaryTree.ofVector?, powTwoCheck, sumLoop, sumAdjacent, npSign]) 3⟩

end QSVEPy
